import Mathlib

set_option linter.unusedVariables false

/-!
# Verification of the debug-parser grammar (`src/lib.rs`)

This file shallowly embeds the nom-based recursive-descent parser of the
debug-parser crate.  Inputs are `List Char` (the remaining unparsed input of a
`&str`), and a parse result mirrors nom's `IResult`:

* `PResult.ok rest v`  — `Ok((rest, v))`
* `PResult.err e`      — `Err(nom::Err::Error(e))`   (recoverable, backtrackable)
* `PResult.fail e`     — `Err(nom::Err::Failure(e))` (committed / fatal, produced by `cut`)

The error value models `nom::error::VerboseError`: a list of
(remaining input, kind-or-context) entries, where `context` pushes a labelled
entry on both error tiers, exactly as nom's `context` combinator does.

Machine floats (`f64`, produced by `nom::number::complete::double`) are
modelled by the exact rational value of the recognized decimal literal;
IEEE-754 rounding is abstracted away (every numeric literal compared by the
claims is a small integer, exactly representable in `f64`).

Recursion through the grammar is bounded by an explicit fuel parameter
(`data_model 0` reports a committed out-of-fuel failure); the Rust code has no
such bound and simply grows the call stack with nesting depth.
-/

/-- The kinds of low-level nom errors produced by the combinators this crate
uses (`nom::error::ErrorKind` restricted to the kinds actually reachable),
plus `fuel` for exhaustion of the explicit recursion bound of the embedding. -/
inductive ErrKind where
  | tag
  | chr
  | oneOf
  | alphaNumeric
  | escapedK
  | floatK
  | digit
  | altK
  | separatedList
  | failK
  | fuel

/-- One entry of a `VerboseError`-style error trace: either a low-level error
kind or a `context` label, each with the remaining input where it occurred. -/
inductive ErrItem where
  | kind (pos : List Char) (k : ErrKind)
  | ctx (pos : List Char) (label : String)

abbrev PError := List ErrItem

/-- nom's `IResult`: success with remaining input, recoverable error
(`Err::Error`), or committed failure (`Err::Failure`). -/
inductive PResult (α : Type) where
  | ok (rest : List Char) (val : α)
  | err (e : PError)
  | fail (e : PError)

/-- A parser over the remaining input, as in `fn(&str) -> IResult<&str, α>`. -/
abbrev PFn (α : Type) := List Char → PResult α

def PResult.isOk {α : Type} : PResult α → Bool
  | .ok _ _ => true
  | _ => false

/-- Recoverable (`Err::Error`) outcomes: exactly the ones `alt` skips over. -/
def PResult.isErr {α : Type} : PResult α → Bool
  | .err _ => true
  | _ => false

/-- Sequencing of `IResult` via `?`: errors of either tier propagate unchanged. -/
def pbind {α β : Type} (r : PResult α) (f : List Char → α → PResult β) : PResult β :=
  match r with
  | .ok rest v => f rest v
  | .err e => .err e
  | .fail e => .fail e

/-- `nom::combinator::map`. -/
def pmap {α β : Type} (f : α → β) (p : PFn α) : PFn β := fun i =>
  match p i with
  | .ok r v => .ok r (f v)
  | .err e => .err e
  | .fail e => .fail e

/-- `List.isPrefixOf`, restated with nested matches so that it reduces
definitionally when only the candidate prefix is concrete. -/
def listPrefix : List Char → List Char → Bool
  | [], _ => true
  | a :: as, i =>
    match i with
    | [] => false
    | b :: bs => a == b && listPrefix as bs

/-- `nom::bytes::complete::tag`. -/
def ptag (t : List Char) : PFn (List Char) := fun i =>
  if listPrefix t i then .ok (i.drop t.length) t else .err [.kind i .tag]

/-- `nom::character::complete::char`. -/
def pchar (c : Char) : PFn Char := fun i =>
  match i with
  | c2 :: rest => if c2 == c then .ok rest c else .err [.kind i .chr]
  | [] => .err [.kind i .chr]

/-- `nom::sequence::preceded`. -/
def preceded {α β : Type} (p : PFn α) (q : PFn β) : PFn β := fun i =>
  pbind (p i) fun j _ => q j

/-- `nom::sequence::terminated`. -/
def terminated {α β : Type} (p : PFn α) (q : PFn β) : PFn α := fun i =>
  pbind (p i) fun j v =>
    match q j with
    | .ok r _ => .ok r v
    | .err e => .err e
    | .fail e => .fail e

/-- `nom::sequence::delimited`. -/
def pdelimited {α β γ : Type} (a : PFn α) (b : PFn β) (c : PFn γ) : PFn β := fun i =>
  pbind (a i) fun j _ => pbind (b j) fun r v =>
    match c r with
    | .ok r2 _ => .ok r2 v
    | .err e => .err e
    | .fail e => .fail e

/-- `nom::sequence::separated_pair`. -/
def seqPair {α σ β : Type} (a : PFn α) (sep : PFn σ) (b : PFn β) : PFn (α × β) := fun i =>
  pbind (a i) fun j va => pbind (sep j) fun k _ => pbind (b k) fun r vb => .ok r (va, vb)

/-- `nom::combinator::opt`: a recoverable error becomes `none`; a committed
failure still propagates. -/
def popt {α : Type} (p : PFn α) : PFn (Option α) := fun i =>
  match p i with
  | .ok r v => .ok r (some v)
  | .err _ => .ok i none
  | .fail e => .fail e

/-- `nom::combinator::cut`: promotes a recoverable error to a committed failure. -/
def pcut {α : Type} (p : PFn α) : PFn α := fun i =>
  match p i with
  | .err e => .fail e
  | r => r

/-- `nom::error::context`: pushes a context label onto the error trace of both
error tiers, leaves successes alone. -/
def pcontext {α : Type} (label : String) (p : PFn α) : PFn α := fun i =>
  match p i with
  | .ok r v => .ok r v
  | .err e => .err (e ++ [.ctx i label])
  | .fail e => .fail (e ++ [.ctx i label])

/-- The loop of `nom::branch::alt`: alternatives are tried left to right; the
first success or committed failure is returned; when every alternative fails
recoverably the last error is returned with an `Alt` entry appended (default
`ParseError::or` keeps the second error). -/
def altGo {α : Type} (i : List Char) : List (PFn α) → PError → PResult α
  | [], acc => .err (acc ++ [.kind i .altK])
  | p :: ps, _ =>
    match p i with
    | .err e2 => altGo i ps e2
    | r => r

/-- `nom::branch::alt` over an explicit list of alternatives. -/
def altList {α : Type} (ps : List (PFn α)) : PFn α := fun i => altGo i ps []

/-- `Parser::or` (used for `parse_str.or(parse_string)`): unlike `alt` it does
not append an `Alt` entry; the second parser's error is kept. -/
def por {α : Type} (p q : PFn α) : PFn α := fun i =>
  match p i with
  | .err _ => q i
  | r => r

/-- The loop of `nom::multi::separated_list0`/`separated_list1` after the first
element has been parsed: on each round the separator then an element are tried,
backtracking to before the separator when either fails recoverably; a committed
failure propagates; a separator that consumes nothing is a `SeparatedList`
error.  `n` is loop fuel (the Rust loop is bounded by input length). -/
def sepLoop {σ β : Type} (sep : PFn σ) (elem : PFn β) :
    Nat → List Char → List β → PResult (List β)
  | 0, i, _ => .fail [.kind i .fuel]
  | n + 1, i, acc =>
    match sep i with
    | .err _ => .ok i acc.reverse
    | .fail e => .fail e
    | .ok i1 _ =>
      if i1.length == i.length then .err [.kind i1 .separatedList]
      else
        match elem i1 with
        | .err _ => .ok i acc.reverse
        | .fail e => .fail e
        | .ok i2 o => sepLoop sep elem n i2 (o :: acc)

/-- `nom::multi::separated_list0`: zero elements is a success. -/
def sepList0 {σ β : Type} (fuel : Nat) (sep : PFn σ) (elem : PFn β) : PFn (List β) := fun i =>
  match elem i with
  | .err _ => .ok i []
  | .fail e => .fail e
  | .ok i1 o => sepLoop sep elem fuel i1 [o]

/-- `nom::multi::separated_list1`: the first element's error propagates. -/
def sepList1 {σ β : Type} (fuel : Nat) (sep : PFn σ) (elem : PFn β) : PFn (List β) := fun i =>
  match elem i with
  | .err e => .err e
  | .fail e => .fail e
  | .ok i1 o => sepLoop sep elem fuel i1 [o]

/-! ## Lexical primitives (`src/lib.rs` lines 57–96, 353–382) -/

/-- The whitespace class of `spacer`: space, tab, carriage return, newline. -/
def isSpaceChar (c : Char) : Bool := c == ' ' || c == '\t' || c == '\r' || c == '\n'

/-- The identifier class of `char_checker`: ASCII alphanumeric or underscore
(nom's `AsChar::is_alphanum` is ASCII-only, like `Char.isAlphanum`). -/
def identChar (c : Char) : Bool := c.isAlphanum || c == '_'

/-- The numeric class of `num_checker`: ASCII digit or `.`. -/
def numChar (c : Char) : Bool := c.isDigit || c == '.'

/-- The stop set of `char_checker_wc`: the structural delimiters. -/
def wcStop (c : Char) : Bool := c == ',' || c == '\x7d' || c == ')' || c == ']'

/-- `spacer`: `take_while` over the whitespace class; never fails. -/
def spacer : PFn (List Char) := fun i =>
  .ok (i.dropWhile isSpaceChar) (i.takeWhile isSpaceChar)

/-- `split_at_position1_complete` with an acceptance class: the maximal
non-empty run of accepted characters, an `AlphaNumeric` error when empty. -/
def split1 (keep : Char → Bool) (k : ErrKind) : PFn (List Char) := fun i =>
  match i.takeWhile keep with
  | [] => .err [.kind i k]
  | run => .ok (i.dropWhile keep) run

/-- `char_checker`. -/
def char_checker : PFn (List Char) := split1 identChar .alphaNumeric

/-- `num_checker`. -/
def num_checker : PFn (List Char) := split1 numChar .alphaNumeric

/-- `char_checker_wc`. -/
def char_checker_wc : PFn (List Char) := split1 (fun c => !(wcStop c)) .alphaNumeric

/-- `everything_none_space`. -/
def everything_none_space : PFn (List Char) := split1 (fun c => !(c == ' ')) .alphaNumeric

/-- The character-by-character loop of `nom::bytes::complete::escaped`:
an accepted character continues the run; a backslash followed by an escapable
character continues the run; a backslash at end of input is an `Escaped` error
at the original input; a backslash before a non-escapable character is the
inner `one_of` error at the position after the backslash; any other character
stops the run. -/
def pescapedGo (accept : Char → Bool) (esc : List Char) (orig : List Char) :
    List Char → PResult (List Char)
  | [] => .ok [] []
  | c :: rest =>
    if accept c then
      match pescapedGo accept esc orig rest with
      | .ok r consumed => .ok r (c :: consumed)
      | e => e
    else if c == '\\' then
      match rest with
      | [] => .err [.kind orig .escapedK]
      | e2 :: rest2 =>
        if esc.contains e2 then
          match pescapedGo accept esc orig rest2 with
          | .ok r consumed => .ok r (c :: e2 :: consumed)
          | e => e
        else .err [.kind rest .oneOf]
    else .ok (c :: rest) []

/-- `nom::bytes::complete::escaped(normal, '\\', one_of(esc))` where `normal`
is a `split_at_position1_complete` run over `accept`: empty input succeeds
with an empty match; a first character that is neither accepted nor a
backslash is an `Escaped` error. -/
def pescaped (accept : Char → Bool) (esc : List Char) : PFn (List Char) := fun i =>
  match i with
  | [] => .ok [] []
  | c :: _ =>
    if accept c || c == '\\' then pescapedGo accept esc i i
    else .err [.kind i .escapedK]

/-- `parse_str`: `escaped(char_checker, '\\', one_of("\"n\\"))`. -/
def parse_str : PFn (List Char) := pescaped identChar ['"', 'n', '\\']

/-! ## Scalar parsers (`src/lib.rs` lines 87–165) -/

/-- `parse_bool`: `alt((value(true, tag("true")), value(false, tag("false"))))`. -/
def parse_bool : PFn Bool :=
  altList [pmap (fun _ => true) (ptag "true".toList), pmap (fun _ => false) (ptag "false".toList)]

/-- `parse_null`: `value((), tag("None"))`. -/
def parse_null : PFn Unit := pmap (fun _ => ()) (ptag "None".toList)

/-- `parse_string` (the one in `lib.rs`, used for quoted map keys):
`context("string", preceded(char('"'), cut(terminated(parse_str, char('"')))))`. -/
def parse_string : PFn (List Char) :=
  pcontext "string" (preceded (pchar '"') (pcut (terminated parse_str (pchar '"'))))

/-- The `|x| ...join...` closure of `parse_datetime`: `Vec<&str>::join(sep)`. -/
def dtJoin1 (sepc : Char) : List (List Char) → List Char
  | [] => []
  | [g] => g
  | g :: gs => g ++ sepc :: dtJoin1 sepc gs

/-- `parse_datetime`: one or more `num_checker` groups joined by `-`, a single
space, one or more `num_checker` groups joined by `:`; the matched groups are
re-joined with their separators (the `println!` side effect is dropped).
`fuel` bounds the `separated_list1` loops of the embedding. -/
def parse_datetime (fuel : Nat) : PFn (List Char) := fun i =>
  pcontext "datetime"
    (pmap (fun x => dtJoin1 '-' x.1 ++ ' ' :: dtJoin1 ':' x.2)
      (seqPair (sepList1 fuel (ptag ['-']) num_checker) (ptag [' '])
        (sepList1 fuel (ptag [':']) num_checker))) i

/-! ### `nom::number::complete::double` (used by `parse_float`)

nom 7.1 parses a float as `recognize_float_parts`: an optional sign, leading
zeroes, integer digits, an optional `.` with fraction digits (at least one of
integer/fraction digits required, else a `Float` error), then an optional
`e`/`E` exponent whose integer is parsed by `cut(i32)` — so a malformed or
overflowing exponent after `e` is a *committed* failure.  The resulting `f64`
is modelled by the exact rational value of the recognized literal. -/

/-- nom's `sign`: consumes an optional `+`/`-`; `true` means non-negative. -/
def nomSign : List Char → List Char × Bool
  | '+' :: r => (r, true)
  | '-' :: r => (r, false)
  | i => (i, true)

def digitsToNat (ds : List Char) : Nat := ds.foldl (fun a c => a * 10 + (c.toNat - 48)) 0

/-- The digit-folding loop of `nom::character::complete::i32` with its
`checked_mul`/`checked_add`/`checked_sub` overflow test. -/
def i32Loop (pos : Bool) : Int → List Char → Option Int
  | acc, [] => some acc
  | acc, c :: rest =>
    let d : Int := ((c.toNat - 48 : Nat) : Int)
    let acc2 := if pos then acc * 10 + d else acc * 10 - d
    if acc2 < -2147483648 || 2147483647 < acc2 then none else i32Loop pos acc2 rest

/-- `nom::character::complete::i32`: optional sign, at least one digit,
overflow is a `Digit` error at the original input. -/
def nomI32 : PFn Int := fun input =>
  let s := nomSign input
  match s.1 with
  | [] => .err [.kind input .digit]
  | c :: _ =>
    if c.isDigit then
      match i32Loop s.2 0 (s.1.takeWhile Char.isDigit) with
      | some v => .ok (s.1.dropWhile Char.isDigit) v
      | none => .err [.kind input .digit]
    else .err [.kind input .digit]

/-- The four parts recognized by `recognize_float_parts`; `intDigits` carries
the full integer digit run (nom trims leading zeroes but that is
value-preserving, as is its trimming of trailing fraction zeroes). -/
structure FloatParts where
  pos : Bool
  intDigits : List Char
  fracDigits : List Char
  exp : Int

/-- `nom::number::complete::recognize_float_parts`. -/
def recognize_float_parts (input : List Char) : PResult FloatParts :=
  let s := nomSign input
  let i0 := s.1
  let zeroes := i0.takeWhile (fun c => c == '0')
  let i1 := i0.dropWhile (fun c => c == '0')
  let intDs := i1.takeWhile Char.isDigit
  let i2 := i1.dropWhile Char.isDigit
  let dotted := i2.head? == some '.'
  let afterDot := if dotted then i2.drop 1 else i2
  let fracDs := if dotted then afterDot.takeWhile Char.isDigit else []
  let i3 := if dotted then afterDot.dropWhile Char.isDigit else i2
  if zeroes.isEmpty && intDs.isEmpty && fracDs.isEmpty then .err [.kind input .floatK]
  else
    match i3 with
    | c :: i4 =>
      if c == 'e' || c == 'E' then
        match nomI32 i4 with
        | .ok r v => .ok r ⟨s.2, zeroes ++ intDs, fracDs, v⟩
        | .err e => .fail e
        | .fail e => .fail e
      else .ok i3 ⟨s.2, zeroes ++ intDs, fracDs, 0⟩
    | [] => .ok [] ⟨s.2, zeroes ++ intDs, fracDs, 0⟩

/-- The exact value of the recognized decimal literal —
`±(digits of the mantissa) · 10^(exp − #fraction digits)` — the embedding's
stand-in for `minimal_lexical::parse_float`. -/
def floatValue (fp : FloatParts) : Rat :=
  let m : Nat := digitsToNat (fp.intDigits ++ fp.fracDigits)
  let num : Int := if fp.pos then (m : Int) else -(m : Int)
  let net : Int := fp.exp - (fp.fracDigits.length : Int)
  if 0 ≤ net then mkRat (num * (((10 : Nat) ^ net.toNat : Nat) : Int)) 1
  else mkRat num ((10 : Nat) ^ (-net).toNat)

/-- `nom::number::complete::double`. -/
def double : PFn Rat := fun i =>
  match recognize_float_parts i with
  | .ok r parts => .ok r (floatValue parts)
  | .err e => .err e
  | .fail e => .fail e

/-- `parse_float`: delegates to `double`, but rejects the match (with
`fail(input)`, i.e. a recoverable `Fail`-kind error at the original input)
when the character immediately following the parsed number is `*`. -/
def parse_float : PFn Rat := fun i =>
  match double i with
  | .ok rest v =>
    match rest with
    | '*' :: _ => .err [.kind i .failK]
    | _ => .ok rest v
  | .err e => .err e
  | .fail e => .fail e

/-! ## Wildcard and masked-value recognition (`src/lib.rs` lines 353–382) -/

/-- `masked_data`: `delimited(tag("*** "), everything_none_space, tag(" ***"))`. -/
def masked_data : PFn (List Char) :=
  pdelimited (ptag "*** ".toList) everything_none_space (ptag " ***".toList)

/-- `parse_wildcard`: first the masked-value shape (mapped to the fixed
sentinel), otherwise a maximal escaped run up to a structural delimiter. -/
def parse_wildcard : PFn (List Char) :=
  altList
    [ pmap (fun _ => "*** masked ***".toList) masked_data
    , pescaped (fun c => !(wcStop c)) ['"', 'n', '\\'] ]

/-- Modelled from the spec: the quoted-string body scanner of the repository's
`string` module (`src/string.rs` is not under `src/`; only its use
`string::parse_string` in the dispatcher is).  Per spec §4.1, it accepts a
maximal run of non-`"` characters, treating a backslash followed by `"`, `n`
or `\` as an escaped unit that does not terminate the run, and unescapes the
escaped units.  Returns (unescaped body, rest). -/
def string_body : List Char → List Char × List Char
  | [] => ([], [])
  | '\\' :: c :: rest =>
    if c == '"' || c == '\\' then
      let p := string_body rest
      (c :: p.1, p.2)
    else if c == 'n' then
      let p := string_body rest
      ('\n' :: p.1, p.2)
    else ([], '\\' :: c :: rest)
  | '"' :: rest => ([], '"' :: rest)
  | c :: rest =>
    let p := string_body rest
    (c :: p.1, p.2)

/-- Modelled from the spec: `string::parse_string`, the quoted-string parser
the dispatcher uses (spec §4.2): a leading `"` is required and is the commit
point; the interior is the string-body scanner output, unescaped; the trailing
`"` is required; failures after the commit point are fatal, labelled with the
`string` context (§6). -/
def string_parse_string : PFn (List Char) :=
  pcontext "string"
    (preceded (pchar '"')
      (pcut (fun j =>
        match pchar '"' (string_body j).2 with
        | .ok r2 _ => .ok r2 (string_body j).1
        | .err e => .err e
        | .fail e => .fail e)))

/-! ## The data model (`src/lib.rs` lines 26–33) -/

/-- `DataModel`: the untyped value tree.  `Float` carries the exact rational
value of the literal (see the header comment); `Map` models
`HashMap<&str, DataModel>` as an association list with unique keys, built by
iterator `collect` (later entries overwrite earlier ones). -/
inductive DataModel where
  | Null : DataModel
  | Boolean (b : Bool) : DataModel
  | Float (v : Rat) : DataModel
  | String (s : String) : DataModel
  | Map (m : List (String × DataModel)) : DataModel
  | Vec (l : List DataModel) : DataModel

/-- `HashMap::insert` on the association-list model: overwrite the entry with
the same key in place, otherwise append. -/
def hmInsert (m : List (String × DataModel)) (k : String) (v : DataModel) :
    List (String × DataModel) :=
  if m.any (fun p => p.1 == k) then m.map (fun p => if p.1 == k then (k, v) else p)
  else m ++ [(k, v)]

/-- `tuple_vec.into_iter().collect::<HashMap<_, _>>()`: fold `insert` over the
parsed entries in order, so the most recently parsed entry for a key wins. -/
def collectMap (l : List (String × DataModel)) : List (String × DataModel) :=
  l.foldl (fun m kv => hmInsert m kv.1 kv.2) []

/-! ## Composite parsers and the dispatcher (`src/lib.rs` lines 167–351, 387–446)

The grammar is recursive through `data_model`; the embedding ties the knot with
a fuel parameter.  Each `parse_xxxF` is the body of the Rust function with the
recursive occurrence of `data_model` abstracted as `dm`; the fuelled wrappers
`parse_xxx fuel = parse_xxxF fuel (data_model fuel)` below instantiate it the
way `data_model (fuel+1)` does. -/

/-- The element separator `preceded(spacer, char(','))` shared by the
composite parsers. -/
def sepComma : PFn Char := preceded spacer (pchar ',')

/-- `parse_array` body: `[` commits, elements are the dispatcher separated by
`,`, `]` required. -/
def parse_arrayF (fuel : Nat) (dm : PFn DataModel) : PFn (List DataModel) :=
  pcontext "array"
    (preceded (pchar '[')
      (pcut (terminated (sepList0 fuel sepComma dm) (preceded spacer (pchar ']')))))

/-- `parse_array_tuple` body: as `parse_array` but delimited by `(`/`)`. -/
def parse_array_tupleF (fuel : Nat) (dm : PFn DataModel) : PFn (List DataModel) :=
  pcontext "tuple"
    (preceded (pchar '(')
      (pcut (terminated (sepList0 fuel sepComma dm) (preceded spacer (pchar ')')))))

/-- `parse_key_value_hash` body: quoted key, `cut` `:`, value; the key slice
is kept verbatim (escapes and all). -/
def parse_key_value_hashF (dm : PFn DataModel) : PFn (String × DataModel) :=
  pmap (fun kv => (String.mk kv.1, kv.2))
    (seqPair (preceded spacer parse_string) (pcut (preceded spacer (pchar ':')))
      (preceded spacer dm))

/-- `parse_key_value_struct` body: bare (`parse_str`) or quoted key, `cut` `:`,
value. -/
def parse_key_value_structF (dm : PFn DataModel) : PFn (String × DataModel) :=
  pmap (fun kv => (String.mk kv.1, kv.2))
    (seqPair (preceded spacer (por parse_str parse_string))
      (pcut (preceded spacer (pchar ':'))) (preceded spacer dm))

/-- `parse_hash` body: `{` commits, quoted-key entries, `}` required, entries
collected into the map (duplicates: last write wins). -/
def parse_hashF (fuel : Nat) (dm : PFn DataModel) : PFn (List (String × DataModel)) :=
  pcontext "map"
    (preceded (pchar '\x7b')
      (pcut (terminated (pmap collectMap (sepList0 fuel sepComma (parse_key_value_hashF dm)))
        (preceded spacer (pchar '\x7d')))))

/-- The part of `parse_hash_unticked` after its leading whitespace skip:
`{` commits, bare-or-quoted-key entries, `}` required. -/
def hash_unticked_inner (fuel : Nat) (dm : PFn DataModel) : PFn (List (String × DataModel)) :=
  preceded (pchar '\x7b')
    (pcut (terminated
      (pmap collectMap (sepList0 fuel sepComma (parse_key_value_structF dm)))
      (preceded spacer (pchar '\x7d'))))

/-- `parse_hash_unticked` body: leading whitespace tolerated, then as
`parse_hash` but with bare-or-quoted keys; context label `struct map`. -/
def parse_hash_untickedF (fuel : Nat) (dm : PFn DataModel) : PFn (List (String × DataModel)) :=
  pcontext "struct map" (preceded spacer (hash_unticked_inner fuel dm))

/-- `parse_struct` body: a bare identifier, whitespace, then the bare-key map;
only the map is returned (`Ok((value.0, value.1 .1))`). -/
def parse_structF (fuel : Nat) (dm : PFn DataModel) : PFn (List (String × DataModel)) := fun i =>
  match pcontext "struct" (seqPair parse_str spacer (parse_hash_untickedF fuel dm)) i with
  | .ok r v => .ok r v.2
  | .err e => .err e
  | .fail e => .fail e

/-- `parse_named_array` body: a bare identifier, whitespace, then a list; only
the list is returned (the Rust context label is also `struct`). -/
def parse_named_arrayF (fuel : Nat) (dm : PFn DataModel) : PFn (List DataModel) := fun i =>
  match pcontext "struct" (seqPair parse_str spacer (parse_arrayF fuel dm)) i with
  | .ok r v => .ok r v.2
  | .err e => .err e
  | .fail e => .fail e

/-- `parse_tuple_var` body: a bare identifier immediately followed by `(`
(the commit point), exactly one dispatcher value, then required `)`; the
identifier is discarded; context label `option`. -/
def parse_tuple_varF (dm : PFn DataModel) : PFn DataModel :=
  pcontext "option"
    (preceded (preceded parse_str (pchar '(')) (pcut (terminated dm (pchar ')'))))

/-- `data_model`: a whitespace skip, then the ordered twelve-way alternation
(the `dbg!`/`println!` side effects are dropped).  `fuel` bounds the recursion
depth of the embedding. -/
def data_model : Nat → PFn DataModel
  | 0 => fun i => .fail [.kind i .fuel]
  | fuel + 1 => fun i =>
    preceded spacer
      (altList
        [ pmap (fun _ => DataModel.Null) parse_null
        , pmap DataModel.Boolean parse_bool
        , pmap (fun cs => DataModel.String (String.mk cs)) (parse_datetime fuel)
        , pmap DataModel.Float parse_float
        , pmap (fun cs => DataModel.String (String.mk cs)) string_parse_string
        , pmap DataModel.Vec (parse_array_tupleF fuel (data_model fuel))
        , pmap DataModel.Vec (parse_arrayF fuel (data_model fuel))
        , pmap DataModel.Map (parse_hashF fuel (data_model fuel))
        , parse_tuple_varF (data_model fuel)
        , pmap DataModel.Map (parse_structF fuel (data_model fuel))
        , pmap DataModel.Vec (parse_named_arrayF fuel (data_model fuel))
        , pmap (fun cs => DataModel.String (String.mk cs)) parse_wildcard ]) i

/-- `parse_array` with the recursion tied. -/
def parse_array (fuel : Nat) : PFn (List DataModel) := parse_arrayF fuel (data_model fuel)

/-- `parse_array_tuple` with the recursion tied. -/
def parse_array_tuple (fuel : Nat) : PFn (List DataModel) :=
  parse_array_tupleF fuel (data_model fuel)

/-- `parse_key_value_hash` with the recursion tied. -/
def parse_key_value_hash (fuel : Nat) : PFn (String × DataModel) :=
  parse_key_value_hashF (data_model fuel)

/-- `parse_key_value_struct` with the recursion tied. -/
def parse_key_value_struct (fuel : Nat) : PFn (String × DataModel) :=
  parse_key_value_structF (data_model fuel)

/-- `parse_hash` with the recursion tied. -/
def parse_hash (fuel : Nat) : PFn (List (String × DataModel)) :=
  parse_hashF fuel (data_model fuel)

/-- `parse_hash_unticked` with the recursion tied. -/
def parse_hash_unticked (fuel : Nat) : PFn (List (String × DataModel)) :=
  parse_hash_untickedF fuel (data_model fuel)

/-- `parse_struct` with the recursion tied. -/
def parse_struct (fuel : Nat) : PFn (List (String × DataModel)) :=
  parse_structF fuel (data_model fuel)

/-- `parse_named_array` with the recursion tied. -/
def parse_named_array (fuel : Nat) : PFn (List DataModel) :=
  parse_named_arrayF fuel (data_model fuel)

/-- `parse_tuple_var` with the recursion tied. -/
def parse_tuple_var (fuel : Nat) : PFn DataModel :=
  parse_tuple_varF (data_model fuel)

/-- The dispatcher's ordered alternation, as the explicit list of the twelve
alternatives of `data_model` in source order: null, boolean, date/time,
number, quoted string, tuple, list, quoted-key map, named tuple-variant,
named struct, named array, wildcard. -/
def dispatchAlts (fuel : Nat) : List (PFn DataModel) :=
  [ pmap (fun _ => DataModel.Null) parse_null
  , pmap DataModel.Boolean parse_bool
  , pmap (fun cs => DataModel.String (String.mk cs)) (parse_datetime fuel)
  , pmap DataModel.Float parse_float
  , pmap (fun cs => DataModel.String (String.mk cs)) string_parse_string
  , pmap DataModel.Vec (parse_array_tuple fuel)
  , pmap DataModel.Vec (parse_array fuel)
  , pmap DataModel.Map (parse_hash fuel)
  , parse_tuple_var fuel
  , pmap DataModel.Map (parse_struct fuel)
  , pmap DataModel.Vec (parse_named_array fuel)
  , pmap (fun cs => DataModel.String (String.mk cs)) parse_wildcard ]

/-- `root`: `delimited(spacer, data_model, opt(spacer))`. -/
def root (fuel : Nat) : PFn DataModel :=
  pdelimited spacer (data_model fuel) (popt spacer)

/-! ## Auxiliary notions used by the specification claims -/

/-- Keyed lookup on the association-list model of `HashMap`. -/
def lookupAL (m : List (String × DataModel)) (k : String) : Option DataModel :=
  (m.find? (fun p => p.1 == k)).map Prod.snd

/-- Well-formedness of a parsed value: every `Map` node has pairwise distinct
keys, recursively. -/
inductive WF : DataModel → Prop where
  | null : WF .Null
  | bool (b : Bool) : WF (.Boolean b)
  | flt (v : Rat) : WF (.Float v)
  | str (s : String) : WF (.String s)
  | vec (l : List DataModel) (h : ∀ x ∈ l, WF x) : WF (.Vec l)
  | map (m : List (String × DataModel)) (hk : (m.map Prod.fst).Nodup)
      (hv : ∀ p ∈ m, WF p.2) : WF (.Map m)

/-- A date/time group: non-empty, all characters digits or `.`. -/
def numGroupOk (g : List Char) : Prop := g ≠ [] ∧ ∀ c ∈ g, numChar c = true

/-- The input after a date/time token may not extend it: its first character
is not a group character, and if it is the separator the character after it is
not a group character either (otherwise `separated_list1` would keep going). -/
def noExt (sepc : Char) : List Char → Prop
  | [] => True
  | [c] => numChar c = false
  | c :: d :: _ => numChar c = false ∧ (c = sepc → numChar d = false)

/-- Each tail group of a separated list, with its leading separator. -/
def prepSep (sepc : Char) (gs : List (List Char)) : List Char :=
  (gs.map (fun g => sepc :: g)).flatten

/-! ## Helper lemmas about the combinators -/

theorem data_model_zero (i : List Char) : data_model 0 i = .fail [.kind i .fuel] := rfl

/-- Unfolding the dispatcher one step: a whitespace skip, then the ordered
alternation over `dispatchAlts`. -/
theorem data_model_succ (fuel : Nat) (i : List Char) :
    data_model (fuel + 1) i = altGo (i.dropWhile isSpaceChar) (dispatchAlts fuel) [] := rfl

theorem pmap_ok {α β : Type} {f : α → β} {p : PFn α} {i r : List Char} {v : β}
    (h : pmap f p i = .ok r v) : ∃ u, p i = .ok r u ∧ v = f u := by
  unfold pmap at h
  cases hp : p i <;> rw [hp] at h <;> cases h
  exact ⟨_, rfl, rfl⟩

theorem pcontext_ok {α : Type} {lbl : String} {p : PFn α} {i r : List Char} {v : α}
    (h : pcontext lbl p i = .ok r v) : p i = .ok r v := by
  unfold pcontext at h
  cases hp : p i <;> rw [hp] at h <;> cases h
  rfl

theorem pcut_ok {α : Type} {p : PFn α} {i r : List Char} {v : α}
    (h : pcut p i = .ok r v) : p i = .ok r v := by
  unfold pcut at h
  cases hp : p i <;> rw [hp] at h <;> cases h
  rfl

theorem preceded_ok {α β : Type} {p : PFn α} {q : PFn β} {i r : List Char} {v : β}
    (h : preceded p q i = .ok r v) : ∃ j u, p i = .ok j u ∧ q j = .ok r v := by
  unfold preceded pbind at h
  cases hp : p i <;> rw [hp] at h
  · exact ⟨_, _, rfl, h⟩
  · cases h
  · cases h


theorem altGo_cons_err {α : Type} {i : List Char} {p : PFn α} {ps : List (PFn α)}
    {acc e : PError} (hp : p i = .err e) : altGo i (p :: ps) acc = altGo i ps e := by
  conv_lhs => unfold altGo
  rw [hp]

theorem altGo_cons_ok {α : Type} {i : List Char} {p : PFn α} {ps : List (PFn α)}
    {acc : PError} {r : List Char} {v : α} (hp : p i = .ok r v) :
    altGo i (p :: ps) acc = .ok r v := by
  conv_lhs => unfold altGo
  rw [hp]

theorem altGo_cons_fail {α : Type} {i : List Char} {p : PFn α} {ps : List (PFn α)}
    {acc e : PError} (hp : p i = .fail e) : altGo i (p :: ps) acc = .fail e := by
  conv_lhs => unfold altGo
  rw [hp]

theorem terminated_ok {α β : Type} {p : PFn α} {q : PFn β} {i r : List Char} {v : α}
    (h : terminated p q i = .ok r v) : ∃ j, p i = .ok j v ∧ ∃ u, q j = .ok r u := by
  unfold terminated pbind at h
  revert h
  cases hp : p i with
  | ok j w =>
    intro h
    dsimp only at h
    split at h
    case h_1 r2 u hq => cases h; exact ⟨j, rfl, u, hq⟩
    case h_2 => cases h
    case h_3 => cases h
  | err e => intro h; cases h
  | fail e => intro h; cases h

theorem seqPair_ok {α σ β : Type} {a : PFn α} {sep : PFn σ} {b : PFn β}
    {i r : List Char} {v : α × β} (h : seqPair a sep b i = .ok r v) :
    ∃ j va k, a i = .ok j va ∧ (∃ w, sep j = .ok k w) ∧ b k = .ok r v.2 ∧ v.1 = va := by
  unfold seqPair pbind at h
  revert h
  cases ha : a i with
  | ok j va =>
    intro h
    dsimp only at h
    revert h
    cases hs : sep j with
    | ok k w =>
      intro h
      dsimp only at h
      revert h
      cases hb : b k with
      | ok r2 vb =>
        intro h
        dsimp only at h
        cases h
        exact ⟨j, va, k, rfl, ⟨w, hs⟩, hb, rfl⟩
      | err e => intro h; cases h
      | fail e => intro h; cases h
    | err e => intro h; cases h
    | fail e => intro h; cases h
  | err e => intro h; cases h
  | fail e => intro h; cases h

theorem isErr_exists {α : Type} {x : PResult α} (h : x.isErr = true) : ∃ e, x = .err e := by
  cases x with
  | ok r v => cases h
  | err e => exact ⟨e, rfl⟩
  | fail e => cases h

/-- `alt` returns the first alternative whose outcome is not a recoverable
error, provided every earlier alternative failed recoverably — regardless of
the accumulated error. -/
theorem altGo_first {α : Type} (i : List Char) :
    ∀ (ps : List (PFn α)) (acc : PError) (k : Nat) (hk : k < ps.length),
      (∀ m (hm : m < k), (ps.get ⟨m, Nat.lt_trans hm hk⟩ i).isErr = true) →
      ((ps.get ⟨k, hk⟩ i).isErr = false) →
      altGo i ps acc = ps.get ⟨k, hk⟩ i := by
  intro ps
  induction ps with
  | nil => intro acc k hk; exact absurd hk (by simp)
  | cons p ps ih =>
    intro acc k hk hprev hok
    cases k with
    | zero =>
      have hok' : (p i).isErr = false := hok
      show altGo i (p :: ps) acc = p i
      cases hx : p i with
      | ok r v => exact altGo_cons_ok hx
      | err e => rw [hx] at hok'; cases hok'
      | fail e => exact altGo_cons_fail hx
    | succ k =>
      have h0 : (p i).isErr = true := hprev 0 (Nat.succ_pos k)
      obtain ⟨e, he⟩ := isErr_exists h0
      have hk' : k < ps.length := Nat.lt_of_succ_lt_succ hk
      rw [altGo_cons_err he]
      exact ih e k hk' (fun m hm => hprev (m + 1) (Nat.succ_lt_succ hm)) hok

/-- A successful `alt` outcome is the outcome of one of its alternatives. -/
theorem altGo_ok_mem {α : Type} (i : List Char) :
    ∀ (ps : List (PFn α)) (acc : PError) (r : List Char) (v : α),
      altGo i ps acc = .ok r v → ∃ p ∈ ps, p i = .ok r v := by
  intro ps
  induction ps with
  | nil => intro acc r v h; cases h
  | cons p ps ih =>
    intro acc r v h
    cases hpi : p i with
    | ok r2 v2 =>
      rw [altGo_cons_ok hpi] at h
      cases h
      exact ⟨p, List.mem_cons_self _ _, hpi⟩
    | err e2 =>
      rw [altGo_cons_err hpi] at h
      obtain ⟨q, hq, hqi⟩ := ih _ _ _ h
      exact ⟨q, List.mem_cons_of_mem _ hq, hqi⟩
    | fail e2 =>
      rw [altGo_cons_fail hpi] at h
      cases h

/-- Unfolding equations for the `separated_list` loop. -/
theorem sepLoop_succ_sep_err {σ β : Type} {sep : PFn σ} {elem : PFn β} {n : Nat}
    {i : List Char} {acc : List β} {e : PError} (hs : sep i = .err e) :
    sepLoop sep elem (n + 1) i acc = .ok i acc.reverse := by
  conv_lhs => unfold sepLoop
  rw [hs]

theorem sepLoop_succ_sep_ok {σ β : Type} {sep : PFn σ} {elem : PFn β} {n : Nat}
    {i i1 : List Char} {acc : List β} {w : σ} (hs : sep i = .ok i1 w) :
    sepLoop sep elem (n + 1) i acc =
      (if i1.length == i.length then .err [.kind i1 .separatedList]
       else
        match elem i1 with
        | .err _ => .ok i acc.reverse
        | .fail e => .fail e
        | .ok i2 o => sepLoop sep elem n i2 (o :: acc)) := by
  conv_lhs => unfold sepLoop
  rw [hs]

/-- Elements produced by the `separated_list` loop all come from successful
runs of the element parser. -/
theorem sepLoop_mem {σ β : Type} {sep : PFn σ} {elem : PFn β} {P : β → Prop}
    (hel : ∀ j r x, elem j = .ok r x → P x) :
    ∀ (n : Nat) (i : List Char) (acc : List β) (r : List Char) (xs : List β),
      (∀ x ∈ acc, P x) → sepLoop sep elem n i acc = .ok r xs → ∀ x ∈ xs, P x := by
  intro n
  induction n with
  | zero => intro i acc r xs hacc h; cases h
  | succ n ih =>
    intro i acc r xs hacc h
    cases hs : sep i with
    | err e =>
      rw [sepLoop_succ_sep_err hs] at h
      cases h
      intro x hx
      exact hacc x (List.mem_reverse.mp hx)
    | fail e =>
      unfold sepLoop at h
      rw [hs] at h
      cases h
    | ok i1 w =>
      rw [sepLoop_succ_sep_ok hs] at h
      by_cases hlen : (i1.length == i.length) = true
      · simp only [hlen, if_true] at h; cases h
      · simp only [hlen, if_false, Bool.false_eq_true] at h
        revert h
        cases he : elem i1 with
        | err e =>
          intro h; cases h
          intro x hx
          exact hacc x (List.mem_reverse.mp hx)
        | fail e => intro h; cases h
        | ok i2 o =>
          intro h
          exact ih i2 (o :: acc) r xs
            (by intro x hx
                rcases List.mem_cons.mp hx with hx | hx
                · exact hx ▸ hel _ _ _ he
                · exact hacc x hx) h

/-- Elements produced by `separated_list0` all come from successful runs of
the element parser. -/
theorem sepList0_mem {σ β : Type} {sep : PFn σ} {elem : PFn β} {P : β → Prop}
    (hel : ∀ j r x, elem j = .ok r x → P x) (n : Nat) (i r : List Char) (xs : List β)
    (h : sepList0 n sep elem i = .ok r xs) : ∀ x ∈ xs, P x := by
  unfold sepList0 at h
  revert h
  cases he : elem i with
  | ok i1 o =>
    intro h
    exact sepLoop_mem hel n i1 [o] r xs
      (by intro x hx
          rw [List.mem_singleton] at hx
          exact hx ▸ hel _ _ _ he) h
  | err e => intro h; cases h; intro x hx; cases hx
  | fail e => intro h; cases h

/-! ## Lemmas about runs, maps and groups -/

theorem takeWhile_all_append (p : Char → Bool) :
    ∀ (g s : List Char), (∀ c ∈ g, p c = true) → (∀ c, s.head? = some c → p c = false) →
      (g ++ s).takeWhile p = g ∧ (g ++ s).dropWhile p = s := by
  intro g
  induction g with
  | nil =>
    intro s hg hs
    cases s with
    | nil => exact ⟨rfl, rfl⟩
    | cons c t =>
      have := hs c rfl
      constructor
      · simp [List.takeWhile_cons, this]
      · simp [List.dropWhile_cons, this]
  | cons a g ih =>
    intro s hg hs
    have ha : p a = true := hg a (List.mem_cons_self _ _)
    have ⟨h1, h2⟩ := ih s (fun c hc => hg c (List.mem_cons_of_mem _ hc)) hs
    constructor
    · simp [List.takeWhile_cons, ha, h1]
    · simp [List.dropWhile_cons, ha, h2]

/-- `split_at_position1_complete` on a non-empty accepted run followed by a
stopper returns exactly the run. -/
theorem split1_run {keep : Char → Bool} {k : ErrKind} {g s : List Char}
    (hne : g ≠ []) (hg : ∀ c ∈ g, keep c = true)
    (hs : ∀ c, s.head? = some c → keep c = false) :
    split1 keep k (g ++ s) = .ok s g := by
  have ⟨h1, h2⟩ := takeWhile_all_append keep g s hg hs
  unfold split1
  rw [h1, h2]
  cases g with
  | nil => exact absurd rfl hne
  | cons a g => rfl

/-- Keys after a `HashMap::insert` stay pairwise distinct. -/
theorem hmInsert_keys_nodup {m : List (String × DataModel)} {k : String} {v : DataModel}
    (h : (m.map Prod.fst).Nodup) : ((hmInsert m k v).map Prod.fst).Nodup := by
  unfold hmInsert
  by_cases hany : (m.any fun p => p.1 == k) = true
  · rw [if_pos hany]
    have : ((m.map fun p => if p.1 == k then (k, v) else p).map Prod.fst) = m.map Prod.fst := by
      rw [List.map_map]
      apply List.map_congr_left
      intro p hp
      by_cases hk : (p.1 == k) = true
      · simp only [Function.comp, hk, if_true]
        exact (eq_of_beq hk).symm
      · simp [Function.comp, hk]
    rw [this]
    exact h
  · rw [if_neg hany]
    rw [List.map_append]
    apply List.Nodup.append h (List.nodup_singleton k)
    intro a ha hb
    rw [List.mem_singleton] at hb
    subst hb
    rw [List.mem_map] at ha
    obtain ⟨p, hp, hpk⟩ := ha
    rw [List.any_eq_true] at hany
    exact hany ⟨p, hp, by rw [hpk]; exact beq_self_eq_true _⟩

/-- Every entry of a `HashMap::insert` result is an old entry or the inserted
pair. -/
theorem hmInsert_mem {m : List (String × DataModel)} {k : String} {v : DataModel}
    {p : String × DataModel} (h : p ∈ hmInsert m k v) : p ∈ m ∨ p = (k, v) := by
  unfold hmInsert at h
  by_cases hany : (m.any fun q => q.1 == k) = true
  · rw [if_pos hany] at h
    rw [List.mem_map] at h
    obtain ⟨q, hq, hqe⟩ := h
    by_cases hk : (q.1 == k) = true
    · right; rw [if_pos hk] at hqe; exact hqe.symm
    · left; rw [if_neg hk] at hqe; exact hqe ▸ hq
  · rw [if_neg hany] at h
    rcases List.mem_append.mp h with h | h
    · exact Or.inl h
    · exact Or.inr (List.mem_singleton.mp h)

/-- Keys of a collected map are pairwise distinct (starting from an
accumulator with distinct keys). -/
theorem collect_keys_nodup_aux :
    ∀ (l init : List (String × DataModel)), (init.map Prod.fst).Nodup →
      (((l.foldl (fun m kv => hmInsert m kv.1 kv.2) init).map Prod.fst)).Nodup := by
  intro l
  induction l with
  | nil => intro init h; exact h
  | cons kv l ih =>
    intro init h
    exact ih (hmInsert init kv.1 kv.2) (hmInsert_keys_nodup h)

/-- `collectMap` produces pairwise distinct keys. -/
theorem collectMap_keys_nodup (l : List (String × DataModel)) :
    ((collectMap l).map Prod.fst).Nodup :=
  collect_keys_nodup_aux l [] List.nodup_nil

theorem collect_mem_aux :
    ∀ (l init : List (String × DataModel)) (p : String × DataModel),
      p ∈ l.foldl (fun m kv => hmInsert m kv.1 kv.2) init → p ∈ init ∨ p ∈ l := by
  intro l
  induction l with
  | nil => intro init p h; exact Or.inl h
  | cons kv l ih =>
    intro init p h
    rcases ih (hmInsert init kv.1 kv.2) p h with h2 | h2
    · rcases hmInsert_mem h2 with h3 | h3
      · exact Or.inl h3
      · right
        rw [h3]
        exact List.mem_cons_self _ _
    · exact Or.inr (List.mem_cons_of_mem _ h2)

/-- Every entry of `collectMap l` is an entry of `l`. -/
theorem collectMap_mem {l : List (String × DataModel)} {p : String × DataModel}
    (h : p ∈ collectMap l) : p ∈ l := by
  rcases collect_mem_aux l [] p h with h2 | h2
  · cases h2
  · exact h2

/-! ## Claims -/

/-- C9: the entry point `root` trims leading whitespace, makes a single call
to the dispatcher, and returns its result with trailing whitespace trimmed
from the residue; unconsumed trailing input after a successful parse is
returned as residue, never reported as an error. -/
theorem c9_root_trims_and_returns_residue (fuel : Nat) (i : List Char) :
    root fuel i =
      match data_model fuel (i.dropWhile isSpaceChar) with
      | .ok r v => .ok (r.dropWhile isSpaceChar) v
      | .err e => .err e
      | .fail e => .fail e := by
  have he : root fuel i = pbind (data_model fuel (i.dropWhile isSpaceChar))
      (fun r v => match popt spacer r with
        | .ok r2 _ => .ok r2 v
        | .err e => .err e
        | .fail e => .fail e) := rfl
  rw [he]
  cases h : data_model fuel (i.dropWhile isSpaceChar) <;> rfl

/-- C8: `parse_float` rejects (with a recoverable `Fail`-kind error at the
original input) exactly those inputs on which the standard floating-point
grammar (`double`) succeeds with a `*` immediately following the number; on
every other input it returns exactly what `double` returns. -/
theorem c8_float_star_guard (i : List Char) :
    (∀ r v, double i = .ok r v → r.head? = some '*' →
      parse_float i = .err [.kind i .failK])
  ∧ (∀ r v, double i = .ok r v → r.head? ≠ some '*' → parse_float i = .ok r v)
  ∧ (∀ e, double i = .err e → parse_float i = .err e)
  ∧ (∀ e, double i = .fail e → parse_float i = .fail e) := by
  have he : parse_float i = (match double i with
      | .ok rest v =>
        (match rest with
          | '*' :: _ => .err [.kind i .failK]
          | _ => .ok rest v)
      | .err e => .err e
      | .fail e => .fail e) := rfl
  refine ⟨?_, ?_, ?_, ?_⟩
  · intro r v h hstar
    rw [he, h]
    cases r with
    | nil => cases hstar
    | cons c t =>
      have hc : c = '*' := by simpa using hstar
      subst hc
      rfl
  · intro r v h hstar
    rw [he, h]
    cases r with
    | nil => rfl
    | cons c t =>
      have hc : c ≠ '*' := fun hcc => hstar (by subst hcc; rfl)
      show (match c :: t with
        | '*' :: _ => PResult.err [ErrItem.kind i ErrKind.failK]
        | _ => PResult.ok (c :: t) v) = PResult.ok (c :: t) v
      split
      case h_1 tail heq =>
        injection heq with h1 h2
        exact absurd h1 hc
      case h_2 => rfl
  · intro e h; rw [he, h]
  · intro e h; rw [he, h]

/-- C10 (implicit): the null and boolean parsers match their literals as
prefixes, not whole tokens — on input `None`/`true`/`false` followed by more
identifier characters the dispatcher succeeds with `Null` / the `Boolean`
and leaves the remaining characters unconsumed. -/
theorem c10_null_bool_prefix_matching (f : Nat) (rest : List Char)
    (hne : rest ≠ []) (hid : ∀ c ∈ rest, identChar c = true) :
    data_model (f + 1) ('N' :: 'o' :: 'n' :: 'e' :: rest) = .ok rest .Null
  ∧ data_model (f + 1) ('t' :: 'r' :: 'u' :: 'e' :: rest) = .ok rest (.Boolean true)
  ∧ data_model (f + 1) ('f' :: 'a' :: 'l' :: 's' :: 'e' :: rest) = .ok rest (.Boolean false) := by
  refine ⟨rfl, rfl, rfl⟩

theorem c10_witness :
    data_model 1 ("NoneSuch".toList) = .ok ("Such".toList) .Null
  ∧ data_model 1 ("truest".toList) = .ok ("st".toList) (.Boolean true)
  ∧ data_model 1 ("falsest".toList) = .ok ("st".toList) (.Boolean false) :=
  ⟨(c10_null_bool_prefix_matching 0 ("Such".toList) (by decide) (by decide)).1,
   (c10_null_bool_prefix_matching 0 ("st".toList) (by decide) (by decide)).2.1,
   (c10_null_bool_prefix_matching 0 ("st".toList) (by decide) (by decide)).2.2⟩

theorem c8_witness :
    parse_float ("1*".toList) = .err [.kind ("1*".toList) .failK]
  ∧ parse_float ("2.5x".toList) = .ok ("x".toList) (mkRat 5 2) := by
  constructor
  · exact (c8_float_star_guard ("1*".toList)).1 ("*".toList) 1 (by rfl) (by rfl)
  · exact (c8_float_star_guard ("2.5x".toList)).2.1 ("x".toList) (mkRat 5 2) (by rfl) (by decide)

/-- `masked_data` accepts `*** <mid> ***` for any non-empty space-free `mid`,
returning the middle run. -/
theorem masked_data_run (mid rest : List Char) (hne : mid ≠ [])
    (hns : ∀ c ∈ mid, (c == ' ') = false) :
    masked_data ('*' :: '*' :: '*' :: ' ' :: (mid ++ (' ' :: '*' :: '*' :: '*' :: rest))) =
      .ok rest mid := by
  have hsplit : everything_none_space (mid ++ (' ' :: '*' :: '*' :: '*' :: rest)) =
      .ok (' ' :: '*' :: '*' :: '*' :: rest) mid := by
    apply split1_run hne
    · intro c hc
      simp [hns c hc]
    · intro c hc
      injection hc with h
      subst h
      rfl
  have h1 : ptag ("*** ".toList) ('*' :: '*' :: '*' :: ' ' ::
      (mid ++ (' ' :: '*' :: '*' :: '*' :: rest))) =
      .ok (mid ++ (' ' :: '*' :: '*' :: '*' :: rest)) ("*** ".toList) := rfl
  simp only [masked_data, pdelimited, h1, pbind, hsplit]
  rfl

/-- `parse_wildcard` maps any masked token to the fixed sentinel. -/
theorem parse_wildcard_masked (mid rest : List Char) (hne : mid ≠ [])
    (hns : ∀ c ∈ mid, (c == ' ') = false) :
    parse_wildcard ('*' :: '*' :: '*' :: ' ' :: (mid ++ (' ' :: '*' :: '*' :: '*' :: rest))) =
      .ok rest ("*** masked ***".toList) := by
  have h1 := masked_data_run mid rest hne hns
  unfold parse_wildcard altList
  exact altGo_cons_ok (by simp [pmap, h1])

/-- C4: a token of the exact shape `*** <text with no space> ***` is parsed by
the dispatcher to the fixed sentinel text `*** masked ***`, independent of
what appears between the markers — never `Null` and never an error. -/
theorem c4_masked_token_sentinel (f : Nat) (mid rest : List Char) (hne : mid ≠ [])
    (hns : ∀ c ∈ mid, (c == ' ') = false) :
    data_model (f + 1) ("*** ".toList ++ (mid ++ (" ***".toList ++ rest))) =
      .ok rest (.String "*** masked ***") := by
  have hwc := parse_wildcard_masked mid rest hne hns
  show data_model (f + 1) ('*' :: '*' :: '*' :: ' ' ::
      (mid ++ (' ' :: '*' :: '*' :: '*' :: rest))) = .ok rest (.String "*** masked ***")
  rw [data_model_succ]
  have hk : 11 < (dispatchAlts f).length := by simp [dispatchAlts]
  have hstep := altGo_first ('*' :: '*' :: '*' :: ' ' ::
      (mid ++ (' ' :: '*' :: '*' :: '*' :: rest))) (dispatchAlts f) [] 11 hk
    (by intro m hm; interval_cases m <;> rfl)
    (by
      have : ((dispatchAlts f).get ⟨11, hk⟩) = pmap (fun cs => DataModel.String (String.mk cs)) parse_wildcard := rfl
      rw [this]
      simp [pmap, hwc, PResult.isErr])
  refine hstep.trans ?_
  have hget : ((dispatchAlts f).get ⟨11, hk⟩) = pmap (fun cs => DataModel.String (String.mk cs)) parse_wildcard := rfl
  rw [hget]
  simp [pmap, hwc]

theorem c4_witness :
    data_model 1 ("*** alloc::string::String ***".toList) = .ok [] (.String "*** masked ***") :=
  c4_masked_token_sentinel 0 ("alloc::string::String".toList) [] (by decide) (by decide)

/-- C1: the dispatcher is the ordered alternation over `dispatchAlts` — null,
boolean, date/time, number, quoted string, tuple, list, quoted-key map, named
tuple-variant, named struct, named array, wildcard, in that order — tried left
to right at the whitespace-skipped position, and it returns the result of the
first alternative that succeeds when every earlier alternative failed
recoverably. -/
theorem c1_dispatch_order (fuel : Nat) (i : List Char) (k : Nat)
    (hk : k < (dispatchAlts fuel).length)
    (hprev : ∀ m (hm : m < k),
      (((dispatchAlts fuel).get ⟨m, Nat.lt_trans hm hk⟩) (i.dropWhile isSpaceChar)).isErr = true)
    (hok : (((dispatchAlts fuel).get ⟨k, hk⟩) (i.dropWhile isSpaceChar)).isOk = true) :
    data_model (fuel + 1) i = ((dispatchAlts fuel).get ⟨k, hk⟩) (i.dropWhile isSpaceChar) := by
  rw [data_model_succ]
  apply altGo_first _ _ _ k hk hprev
  cases hx : ((dispatchAlts fuel).get ⟨k, hk⟩) (i.dropWhile isSpaceChar) with
  | ok r v => rfl
  | err e => rw [hx] at hok; cases hok
  | fail e => rw [hx] at hok; cases hok

theorem c1_witness :
    data_model 1 ("None".toList) =
      ((dispatchAlts 0).get ⟨0, by simp [dispatchAlts]⟩) (("None".toList).dropWhile isSpaceChar) :=
  c1_dispatch_order 0 ("None".toList) 0 (by simp [dispatchAlts])
    (fun m hm => absurd hm (Nat.not_lt_zero m)) (by rfl)

theorem dropWhileIdem (p : Char → Bool) (l : List Char) :
    (l.dropWhile p).dropWhile p = l.dropWhile p := by
  induction l with
  | nil => rfl
  | cons a l ih =>
    by_cases h : p a = true
    · simp [List.dropWhile_cons, h, ih]
    · simp [List.dropWhile_cons, h]

theorem pcontext_ok_intro {α : Type} {lbl : String} {p : PFn α} {i r : List Char} {v : α}
    (h : p i = .ok r v) : pcontext lbl p i = .ok r v := by
  simp [pcontext, h]

/-- A successful bare-key map parse is insensitive to skipping the leading
whitespace first (the parser's own leading `spacer` makes the skip
idempotent). -/
theorem parse_hash_untickedF_skip {fuel : Nat} {dm : PFn DataModel} {j r : List Char}
    {m : List (String × DataModel)} (h : parse_hash_untickedF fuel dm j = .ok r m) :
    parse_hash_untickedF fuel dm (j.dropWhile isSpaceChar) = .ok r m := by
  have h1 : hash_unticked_inner fuel dm (j.dropWhile isSpaceChar) = .ok r m := by
    have h2 : preceded spacer (hash_unticked_inner fuel dm) j = .ok r m := pcontext_ok h
    exact h2
  apply pcontext_ok_intro
  show hash_unticked_inner fuel dm ((j.dropWhile isSpaceChar).dropWhile isSpaceChar) = .ok r m
  rw [dropWhileIdem]
  exact h1

/-- C7: structure-name discarding is structure-preserving — whenever a bare
identifier parses off the front and the remainder parses as a bare-key map,
the named-struct parser returns exactly that map (the name is gone from the
result); and concretely `Name { a: 1, b: 2 }` under `parse_struct` and
`{ a: 1, b: 2 }` under `parse_hash_unticked` yield the identical map. -/
theorem c7_struct_name_discarding :
    (∀ (fuel : Nat) (i j name r : List Char) (m : List (String × DataModel)),
      parse_str i = .ok j name →
      parse_hash_unticked fuel j = .ok r m →
      parse_struct fuel i = .ok r m)
  ∧ parse_struct 9 ("Name \x7b a: 1, b: 2 \x7d".toList) =
      .ok [] [("a", .Float 1), ("b", .Float 2)]
  ∧ parse_hash_unticked 9 ("\x7b a: 1, b: 2 \x7d".toList) =
      .ok [] [("a", .Float 1), ("b", .Float 2)] := by
  refine ⟨?_, rfl, rfl⟩
  intro fuel i j name r m hstr hhash
  have hskip : parse_hash_untickedF fuel (data_model fuel) (j.dropWhile isSpaceChar) = .ok r m :=
    parse_hash_untickedF_skip hhash
  have hseq : seqPair parse_str spacer (parse_hash_untickedF fuel (data_model fuel)) i =
      .ok r (name, m) := by
    simp only [seqPair, pbind, hstr, spacer]
    rw [hskip]
  have hctx : pcontext "struct" (seqPair parse_str spacer
      (parse_hash_untickedF fuel (data_model fuel))) i = .ok r (name, m) :=
    pcontext_ok_intro hseq
  show parse_structF fuel (data_model fuel) i = .ok r m
  unfold parse_structF
  rw [hctx]

theorem c7_witness :
    parse_struct 9 ("Name \x7b a: 1 \x7d".toList) = .ok [] [("a", .Float 1)] :=
  c7_struct_name_discarding.1 9 ("Name \x7b a: 1 \x7d".toList) (" \x7b a: 1 \x7d".toList)
    ("Name".toList) [] [("a", .Float 1)] (by rfl) (by rfl)

/-- C6: for input of the form `Name(v)` — identifier, then `(` as commit
point — the named tuple-variant parser parses exactly one dispatcher value,
requires the closing `)`, discards the identifier and returns only the inner
value; concretely `Data(("12", 23))` yields the two-element list
`["12", 23.0]`. -/
theorem c6_tuple_variant_unwrap :
    (∀ (fuel : Nat) (i j k name : List Char) (v : DataModel),
      parse_str i = .ok j name →
      j.head? = some '(' →
      data_model fuel (j.drop 1) = .ok k v →
      k.head? = some ')' →
      parse_tuple_var fuel i = .ok (k.drop 1) v)
  ∧ parse_tuple_var 9 ("Data((\"12\", 23))".toList) = .ok [] (.Vec [.String "12", .Float 23]) := by
  refine ⟨?_, rfl⟩
  intro fuel i j k name v hstr hj hdm hk
  obtain ⟨c, t, rfl⟩ : ∃ c t, j = c :: t := by
    cases j with
    | nil => cases hj
    | cons c t => exact ⟨c, t, rfl⟩
  have hc : c = '(' := by simpa using hj
  subst hc
  obtain ⟨d, u, rfl⟩ : ∃ d u, k = d :: u := by
    cases k with
    | nil => cases hk
    | cons d u => exact ⟨d, u, rfl⟩
  have hd : d = ')' := by simpa using hk
  subst hd
  have h1 : preceded parse_str (pchar '(') i = .ok t '(' := by
    simp [preceded, pbind, hstr, pchar]
  have hdm' : data_model fuel t = .ok (')' :: u) v := hdm
  have h2 : terminated (data_model fuel) (pchar ')') t = .ok u v := by
    simp [terminated, pbind, hdm', pchar]
  show parse_tuple_varF (data_model fuel) i = .ok u v
  unfold parse_tuple_varF
  apply pcontext_ok_intro
  simp [preceded, pbind, hstr, pchar, pcut, h2]

theorem c6_witness :
    parse_tuple_var 9 ("Data(None)".toList) = .ok [] .Null :=
  c6_tuple_variant_unwrap.1 9 ("Data(None)".toList) ("(None)".toList) (")".toList)
    ("Data".toList) .Null (by rfl) (by rfl) (by rfl) (by rfl)

/-- Once a construct's opening character has been consumed, a
`context(l, preceded(char(c), cut(p)))` parser can only succeed or fail
fatally with the construct's label — never backtrack. -/
theorem commit_ctx {α : Type} (lbl : String) (c : Char) (p : PFn α) (t : List Char) :
    (∃ r v, pcontext lbl (preceded (pchar c) (pcut p)) (c :: t) = .ok r v) ∨
    (∃ e, pcontext lbl (preceded (pchar c) (pcut p)) (c :: t) = .fail (e ++ [.ctx (c :: t) lbl])) := by
  have h1 : pchar c (c :: t) = .ok t c := by simp [pchar]
  cases hp : p t with
  | ok r v => exact Or.inl ⟨r, v, by simp [pcontext, preceded, pbind, h1, pcut, hp]⟩
  | err e => exact Or.inr ⟨e, by simp [pcontext, preceded, pbind, h1, pcut, hp]⟩
  | fail e => exact Or.inr ⟨e, by simp [pcontext, preceded, pbind, h1, pcut, hp]⟩

/-- C5: once the map's `{` has been consumed, `parse_hash` either succeeds or
fails fatally with the `map` context label (never a recoverable error); the
dispatcher stops at the first committed failure without trying further
alternatives; and on the malformed map `{ "inner": "data"` (missing `}`) the
dispatcher returns a committed failure carrying the `map` label — no
partially-built value. -/
theorem c5_malformed_map_commits :
    (∀ (fuel : Nat) (i : List Char), i.head? = some '\x7b' →
      (∃ r m, parse_hash fuel i = .ok r m) ∨
      (∃ e, parse_hash fuel i = .fail (e ++ [.ctx i "map"])))
  ∧ (∀ (fuel : Nat) (i : List Char) (k : Nat) (hk : k < (dispatchAlts fuel).length) (e : PError),
      (∀ m (hm : m < k),
        (((dispatchAlts fuel).get ⟨m, Nat.lt_trans hm hk⟩) (i.dropWhile isSpaceChar)).isErr = true) →
      ((dispatchAlts fuel).get ⟨k, hk⟩) (i.dropWhile isSpaceChar) = .fail e →
      data_model (fuel + 1) i = .fail e)
  ∧ (∃ e, data_model 9 ("\x7b \"inner\": \"data\"".toList) = .fail e ∧
      ErrItem.ctx ("\x7b \"inner\": \"data\"".toList) "map" ∈ e) := by
  refine ⟨?_, ?_, ?_⟩
  · intro fuel i hi
    obtain ⟨t, rfl⟩ : ∃ t, i = '\x7b' :: t := by
      cases i with
      | nil => cases hi
      | cons c t =>
        have hc : c = '\x7b' := by simpa using hi
        exact ⟨t, by rw [hc]⟩
    exact commit_ctx "map" '\x7b'
      (terminated (pmap collectMap (sepList0 fuel sepComma
        (parse_key_value_hashF (data_model fuel)))) (preceded spacer (pchar '\x7d'))) t
  · intro fuel i k hk e hprev hfail
    rw [data_model_succ]
    exact (altGo_first _ _ _ k hk hprev (by rw [hfail]; rfl)).trans hfail
  · refine ⟨[.kind [] .chr, .ctx ("\x7b \"inner\": \"data\"".toList) "map"], rfl, ?_⟩
    exact List.mem_cons_of_mem _ (List.mem_singleton.mpr rfl)

theorem c5_witness :
    ((∃ r m, parse_hash 1 ['\x7b'] = .ok r m) ∨
      (∃ e, parse_hash 1 ['\x7b'] = .fail (e ++ [.ctx ['\x7b'] "map"])))
  ∧ data_model 9 ("\x7b \"inner\": \"data\"".toList) =
      .fail [.kind [] .chr, .ctx ("\x7b \"inner\": \"data\"".toList) "map"] := by
  constructor
  · exact c5_malformed_map_commits.1 1 ['\x7b'] (by rfl)
  · exact c5_malformed_map_commits.2.1 8 ("\x7b \"inner\": \"data\"".toList) 7
      (by simp [dispatchAlts]) _ (by intro m hm; interval_cases m <;> rfl) (by rfl)

/-- Inverting a successful `{`-committed map body down to its entry list. -/
theorem map_core_ok {fuel : Nat} {kvp : PFn (String × DataModel)} {c : Char} {endp : PFn Char}
    {i r : List Char} {m : List (String × DataModel)}
    (h : preceded (pchar c)
      (pcut (terminated (pmap collectMap (sepList0 fuel sepComma kvp)) endp)) i = .ok r m) :
    ∃ j1 j2 kvs, sepList0 fuel sepComma kvp j1 = .ok j2 kvs ∧ m = collectMap kvs := by
  obtain ⟨j1, u, _, h2⟩ := preceded_ok h
  have h3 := pcut_ok h2
  obtain ⟨j2, hpm, _⟩ := terminated_ok h3
  obtain ⟨kvs, hsep, hmv⟩ := pmap_ok hpm
  exact ⟨j1, j2, kvs, hsep, hmv⟩

/-- Inverting a successful delimited list body down to its element list. -/
theorem vec_core_ok {fuel : Nat} {dm : PFn DataModel} {c : Char} {endp : PFn Char}
    {i r : List Char} {l : List DataModel}
    (h : preceded (pchar c) (pcut (terminated (sepList0 fuel sepComma dm) endp)) i = .ok r l) :
    ∃ j1 j2, sepList0 fuel sepComma dm j1 = .ok j2 l := by
  obtain ⟨j1, u, _, h2⟩ := preceded_ok h
  have h3 := pcut_ok h2
  obtain ⟨j2, hsep, _⟩ := terminated_ok h3
  exact ⟨j1, j2, hsep⟩

/-- Inverting `parse_struct`: the returned map comes from the
`separated_pair` with the name discarded. -/
theorem parse_structF_ok {fuel : Nat} {dm : PFn DataModel} {i r : List Char}
    {m : List (String × DataModel)} (h : parse_structF fuel dm i = .ok r m) :
    ∃ nm, seqPair parse_str spacer (parse_hash_untickedF fuel dm) i = .ok r (nm, m) := by
  unfold parse_structF at h
  revert h
  cases hx : pcontext "struct" (seqPair parse_str spacer (parse_hash_untickedF fuel dm)) i with
  | ok r2 pr =>
    intro h
    cases h
    exact ⟨pr.1, pcontext_ok hx⟩
  | err e => intro h; cases h
  | fail e => intro h; cases h

/-- Inverting `parse_named_array` likewise. -/
theorem parse_named_arrayF_ok {fuel : Nat} {dm : PFn DataModel} {i r : List Char}
    {l : List DataModel} (h : parse_named_arrayF fuel dm i = .ok r l) :
    ∃ nm, seqPair parse_str spacer (parse_arrayF fuel dm) i = .ok r (nm, l) := by
  unfold parse_named_arrayF at h
  revert h
  cases hx : pcontext "struct" (seqPair parse_str spacer (parse_arrayF fuel dm)) i with
  | ok r2 pr =>
    intro h
    cases h
    exact ⟨pr.1, pcontext_ok hx⟩
  | err e => intro h; cases h
  | fail e => intro h; cases h

/-- A collected map whose entries all carry well-formed values is a
well-formed `Map` node. -/
theorem wf_map_of_kvs (kvs : List (String × DataModel)) (hall : ∀ kv ∈ kvs, WF kv.2) :
    WF (.Map (collectMap kvs)) :=
  WF.map _ (collectMap_keys_nodup kvs) (fun p hp => hall p (collectMap_mem hp))

/-- The value component of a successful key-value entry parse is a
successfully dispatched value. -/
theorem kvF_wf {dm : PFn DataModel} (hdm : ∀ j r x, dm j = .ok r x → WF x)
    (keyp : PFn (List Char)) (sepp : PFn Char) :
    ∀ j r x, pmap (fun kv : List Char × DataModel => (String.mk kv.1, kv.2))
      (seqPair keyp sepp (preceded spacer dm)) j = .ok r x → WF x.2 := by
  intro j r x h
  obtain ⟨u, hu, hx⟩ := pmap_ok h
  obtain ⟨j1, va, k, _, _, hb, _⟩ := seqPair_ok hu
  obtain ⟨k2, w, _, hdmok⟩ := preceded_ok hb
  rw [hx]
  exact hdm _ _ _ hdmok

/-- Every value the dispatcher produces is well-formed: in particular no Map
node of the result carries two entries with the same key. -/
theorem data_model_wf : ∀ (fuel : Nat) (i r : List Char) (v : DataModel),
    data_model fuel i = .ok r v → WF v := by
  intro fuel
  induction fuel with
  | zero =>
    intro i r v h
    rw [data_model_zero] at h
    cases h
  | succ f ih =>
    intro i r v h
    rw [data_model_succ] at h
    obtain ⟨p, hp, hpi⟩ := altGo_ok_mem _ _ _ _ _ h
    have ihel : ∀ j r x, data_model f j = .ok r x → WF x := fun j r x hx => ih j r x hx
    simp only [dispatchAlts, List.mem_cons, List.not_mem_nil, or_false] at hp
    rcases hp with hp|hp|hp|hp|hp|hp|hp|hp|hp|hp|hp|hp <;> subst hp
    · obtain ⟨u, _, hv⟩ := pmap_ok hpi
      exact hv ▸ WF.null
    · obtain ⟨u, _, hv⟩ := pmap_ok hpi
      exact hv ▸ WF.bool u
    · obtain ⟨u, _, hv⟩ := pmap_ok hpi
      exact hv ▸ WF.str _
    · obtain ⟨u, _, hv⟩ := pmap_ok hpi
      exact hv ▸ WF.flt u
    · obtain ⟨u, _, hv⟩ := pmap_ok hpi
      exact hv ▸ WF.str _
    · obtain ⟨l, hl, hv⟩ := pmap_ok hpi
      obtain ⟨j1, j2, hsep⟩ := vec_core_ok (pcontext_ok hl)
      exact hv ▸ WF.vec l (sepList0_mem ihel _ _ _ _ hsep)
    · obtain ⟨l, hl, hv⟩ := pmap_ok hpi
      obtain ⟨j1, j2, hsep⟩ := vec_core_ok (pcontext_ok hl)
      exact hv ▸ WF.vec l (sepList0_mem ihel _ _ _ _ hsep)
    · obtain ⟨m, hm, hv⟩ := pmap_ok hpi
      obtain ⟨j1, j2, kvs, hsep, hmv⟩ := map_core_ok (pcontext_ok hm)
      refine hv ▸ hmv ▸ wf_map_of_kvs kvs ?_
      exact fun kv hkv =>
        sepList0_mem (kvF_wf ihel (preceded spacer parse_string)
          (pcut (preceded spacer (pchar ':')))) _ _ _ _ hsep kv hkv
    · have h1 := pcontext_ok hpi
      obtain ⟨j1, u, _, h2⟩ := preceded_ok h1
      have h3 := pcut_ok h2
      obtain ⟨j2, hdm, _⟩ := terminated_ok h3
      exact ihel _ _ _ hdm
    · obtain ⟨m, hm, hv⟩ := pmap_ok hpi
      obtain ⟨nm, hctx⟩ := parse_structF_ok hm
      obtain ⟨j1, va, k, _, _, hb, _⟩ := seqPair_ok hctx
      have hb2 : preceded spacer (hash_unticked_inner f (data_model f)) k = .ok r m :=
        pcontext_ok hb
      obtain ⟨k2, w, _, hb3⟩ := preceded_ok hb2
      obtain ⟨j3, j4, kvs, hsep, hmv⟩ := map_core_ok hb3
      refine hv ▸ hmv ▸ wf_map_of_kvs kvs ?_
      exact fun kv hkv =>
        sepList0_mem (kvF_wf ihel (preceded spacer (por parse_str parse_string))
          (pcut (preceded spacer (pchar ':')))) _ _ _ _ hsep kv hkv
    · obtain ⟨l, hl, hv⟩ := pmap_ok hpi
      obtain ⟨nm, hctx⟩ := parse_named_arrayF_ok hl
      obtain ⟨j1, va, k, _, _, hb, _⟩ := seqPair_ok hctx
      obtain ⟨j2, j3, hsep⟩ := vec_core_ok (pcontext_ok hb)
      exact hv ▸ WF.vec l (sepList0_mem ihel _ _ _ _ hsep)
    · obtain ⟨u, _, hv⟩ := pmap_ok hpi
      exact hv ▸ WF.str _

theorem find?_replaced {k : String} {v : DataModel} :
    ∀ (m : List (String × DataModel)), (m.any fun p => p.1 == k) = true →
      ((m.map fun p => if p.1 == k then (k, v) else p).find? fun p => p.1 == k) = some (k, v) := by
  intro m
  induction m with
  | nil => intro h; cases h
  | cons q m ih =>
    intro h
    by_cases hq : (q.1 == k) = true
    · simp only [List.map_cons, hq, if_true]
      simp [List.find?_cons]
    · have hrep : (if (q.1 == k) = true then (k, v) else q) = q := if_neg hq
      have hfq : (q.1 == k) = false := by revert hq; cases q.1 == k <;> simp
      rw [List.map_cons, hrep, List.find?_cons, hfq]
      apply ih
      rcases List.any_eq_true.mp h with ⟨p, hp, hpk⟩
      rcases List.mem_cons.mp hp with hp | hp
      · exact absurd (hp ▸ hpk) hq
      · exact List.any_eq_true.mpr ⟨p, hp, hpk⟩

theorem find?_appended {k : String} {v : DataModel} :
    ∀ (m : List (String × DataModel)), (m.any fun p => p.1 == k) = false →
      ((m ++ [(k, v)]).find? fun p => p.1 == k) = some (k, v) := by
  intro m
  induction m with
  | nil =>
    intro h
    simp [List.find?_cons]
  | cons q m ih =>
    intro h
    simp only [List.any_cons, Bool.or_eq_false_iff] at h
    rw [List.cons_append]
    simp only [List.find?_cons, h.1]
    exact ih h.2

/-- `HashMap::insert` makes the inserted value the one found for its key. -/
theorem lookupAL_hmInsert (m : List (String × DataModel)) (k : String) (v : DataModel) :
    lookupAL (hmInsert m k v) k = some v := by
  unfold hmInsert lookupAL
  by_cases hany : (m.any fun p => p.1 == k) = true
  · rw [if_pos hany, find?_replaced m hany]
    rfl
  · have hfalse : (m.any fun p => p.1 == k) = false := by
      revert hany
      cases m.any fun p => p.1 == k <;> simp
    rw [if_neg hany, find?_appended m hfalse]
    rfl

theorem collectMap_append_single (l : List (String × DataModel)) (k : String) (v : DataModel) :
    collectMap (l ++ [(k, v)]) = hmInsert (collectMap l) k v := by
  unfold collectMap
  rw [List.foldl_append]
  rfl

/-- C3: duplicate keys resolve to the most recently parsed entry —
`{ "a": 1, "a": 2 }` parses to a map with the single entry `a ↦ 2`; every
value a completed parse produces is well-formed (no Map carries two entries
with the same key); and collecting an entry list whose last entry is `(k, v)`
makes `v` the value found at `k`. -/
theorem c3_duplicate_keys_last_wins :
    data_model 9 ("\x7b \"a\": 1, \"a\": 2 \x7d".toList) = .ok [] (.Map [("a", .Float 2)])
  ∧ (∀ (fuel : Nat) (i r : List Char) (v : DataModel), data_model fuel i = .ok r v → WF v)
  ∧ (∀ (l : List (String × DataModel)) (k : String) (v : DataModel),
      lookupAL (collectMap (l ++ [(k, v)])) k = some v) := by
  refine ⟨rfl, data_model_wf, ?_⟩
  intro l k v
  rw [collectMap_append_single]
  exact lookupAL_hmInsert _ k v

theorem c3_witness : WF (.Map [("a", .Float 2)]) :=
  c3_duplicate_keys_last_wins.2.1 9 ("\x7b \"a\": 1, \"a\": 2 \x7d".toList) []
    (.Map [("a", .Float 2)]) c3_duplicate_keys_last_wins.1

theorem num_checker_group {g s : List Char} (hne : g ≠ []) (hg : ∀ c ∈ g, numChar c = true)
    (hs : ∀ c, s.head? = some c → numChar c = false) :
    num_checker (g ++ s) = .ok s g :=
  split1_run hne hg hs

theorem noExt_head {sepc : Char} {s : List Char} (h : noExt sepc s) :
    ∀ c, s.head? = some c → numChar c = false := by
  intro c hc
  cases s with
  | nil => cases hc
  | cons a t =>
    have ha : a = c := by simpa using hc
    subst ha
    cases t with
    | nil => exact h
    | cons d u => exact h.1

theorem noExt_after_sep {sepc : Char} {d : Char} {u : List Char}
    (h : noExt sepc (sepc :: d :: u)) : numChar d = false :=
  h.2 rfl

theorem noExt_space {sepc : Char} (hs : sepc ≠ ' ') (W : List Char) :
    noExt sepc (' ' :: W) := by
  cases W with
  | nil =>
    show numChar ' ' = false
    decide
  | cons d u =>
    refine ⟨by decide, fun h => absurd h.symm hs⟩

theorem prepSep_cons (sepc : Char) (g : List Char) (gs : List (List Char)) :
    prepSep sepc (g :: gs) = sepc :: (g ++ prepSep sepc gs) := by
  simp [prepSep]

theorem dtJoin1_eq (sepc : Char) : ∀ (gs : List (List Char)) (g : List Char),
    dtJoin1 sepc (g :: gs) = g ++ prepSep sepc gs := by
  intro gs
  induction gs with
  | nil => intro g; simp [dtJoin1, prepSep]
  | cons h t ih =>
    intro g
    show g ++ sepc :: dtJoin1 sepc (h :: t) = g ++ prepSep sepc (h :: t)
    rw [ih h, prepSep_cons]

theorem len_beq_succ_false (n : Nat) : (n == n + 1) = false := by
  simp

theorem split1_head_stop {p : Char → Bool} {k : ErrKind} {c : Char} {t : List Char}
    (hc : p c = false) : split1 p k (c :: t) = .err [.kind (c :: t) k] := by
  simp [split1, List.takeWhile_cons, hc]

theorem ptag_self_cons (sepc : Char) (t : List Char) :
    ptag [sepc] (sepc :: t) = .ok t [sepc] := by
  simp [ptag, listPrefix]

theorem ptag_single_ne {sepc c : Char} (h : c ≠ sepc) (t : List Char) :
    ptag [sepc] (c :: t) = .err [.kind (c :: t) .tag] := by
  have : (sepc == c) = false := by
    simp only [beq_eq_false_iff_ne]
    exact fun hh => h hh.symm
  simp [ptag, listPrefix, this]

theorem ptag_single_nil (sepc : Char) : ptag [sepc] [] = .err [.kind [] .tag] := rfl

theorem num_checker_head_stop {c : Char} {t : List Char} (hc : numChar c = false) :
    num_checker (c :: t) = .err [.kind (c :: t) .alphaNumeric] :=
  split1_head_stop hc

/-- The `separated_list1` loop consumes exactly the remaining
separator-prefixed groups and stops at the boundary. -/
theorem sepLoop_groups {sepc : Char} (hsep : numChar sepc = false) :
    ∀ (gs : List (List Char)) (n : Nat) (acc : List (List Char)) (rest : List Char),
      (∀ g ∈ gs, g ≠ [] ∧ ∀ c ∈ g, numChar c = true) →
      gs.length < n →
      noExt sepc rest →
      sepLoop (ptag [sepc]) num_checker n (prepSep sepc gs ++ rest) acc =
        .ok rest (acc.reverse ++ gs) := by
  intro gs
  induction gs with
  | nil =>
    intro n acc rest hg hn hstop
    obtain ⟨m, rfl⟩ : ∃ m, n = m + 1 := ⟨n - 1, by omega⟩
    show sepLoop (ptag [sepc]) num_checker (m + 1) rest acc = .ok rest (acc.reverse ++ [])
    cases rest with
    | nil =>
      rw [sepLoop_succ_sep_err (ptag_single_nil sepc)]
      simp
    | cons c t =>
      by_cases hc : c = sepc
      · have hstop2 : noExt sepc (sepc :: t) := hc ▸ hstop
        rw [hc]
        rw [sepLoop_succ_sep_ok (ptag_self_cons sepc t)]
        rw [if_neg (by simp)]
        cases t with
        | nil =>
          have hnil : num_checker ([] : List Char) = .err [.kind [] .alphaNumeric] := rfl
          rw [hnil]
          simp
        | cons d u =>
          rw [num_checker_head_stop (noExt_after_sep hstop2)]
          simp
      · rw [sepLoop_succ_sep_err (ptag_single_ne hc t)]
        simp
  | cons g gs ih =>
    intro n acc rest hg hn hstop
    obtain ⟨m, rfl⟩ : ∃ m, n = m + 1 := ⟨n - 1, by omega⟩
    rw [prepSep_cons, List.cons_append]
    rw [sepLoop_succ_sep_ok (ptag_self_cons sepc ((g ++ prepSep sepc gs) ++ rest))]
    rw [if_neg (by simp)]
    have hgrp := hg g (List.mem_cons_self _ _)
    have hnum : num_checker ((g ++ prepSep sepc gs) ++ rest) =
        .ok (prepSep sepc gs ++ rest) g := by
      rw [List.append_assoc]
      apply num_checker_group hgrp.1 hgrp.2
      intro c hc
      cases gs with
      | nil =>
        have hpn : prepSep sepc ([] : List (List Char)) ++ rest = rest := rfl
        rw [hpn] at hc
        exact noExt_head hstop c hc
      | cons h t =>
        rw [prepSep_cons, List.cons_append] at hc
        have hcs : sepc = c := by simpa using hc
        rw [← hcs]
        exact hsep
    rw [hnum]
    show sepLoop (ptag [sepc]) num_checker m (prepSep sepc gs ++ rest) (g :: acc) =
      .ok rest (acc.reverse ++ g :: gs)
    have := ih m (g :: acc) rest (fun x hx => hg x (List.mem_cons_of_mem _ hx))
      (by simpa using Nat.lt_of_succ_lt_succ hn) hstop
    rw [this]
    simp

/-- `separated_list1` over joined groups returns exactly the groups. -/
theorem sepList1_groups {sepc : Char} (hsep : numChar sepc = false)
    (g : List Char) (gs : List (List Char)) (rest : List Char) (n : Nat)
    (hg : ∀ x ∈ g :: gs, x ≠ [] ∧ ∀ c ∈ x, numChar c = true)
    (hn : gs.length < n) (hstop : noExt sepc rest) :
    sepList1 n (ptag [sepc]) num_checker (g ++ (prepSep sepc gs ++ rest)) =
      .ok rest (g :: gs) := by
  have hgrp := hg g (List.mem_cons_self _ _)
  have h1 : num_checker (g ++ (prepSep sepc gs ++ rest)) = .ok (prepSep sepc gs ++ rest) g := by
    apply num_checker_group hgrp.1 hgrp.2
    intro c hc
    cases gs with
    | nil =>
      have hpn : prepSep sepc ([] : List (List Char)) ++ rest = rest := rfl
      rw [hpn] at hc
      exact noExt_head hstop c hc
    | cons h t =>
      rw [prepSep_cons, List.cons_append] at hc
      have hcs : sepc = c := by simpa using hc
      rw [← hcs]
      exact hsep
  have h2 : sepList1 n (ptag [sepc]) num_checker (g ++ (prepSep sepc gs ++ rest)) =
      sepLoop (ptag [sepc]) num_checker n (prepSep sepc gs ++ rest) [g] := by
    unfold sepList1
    rw [h1]
  rw [h2, sepLoop_groups hsep gs n [g] rest
    (fun x hx => hg x (List.mem_cons_of_mem _ hx)) hn hstop]
  simp

theorem numChar_ne_of (x : Char) (hx : numChar x = false) {c : Char}
    (h : numChar c = true) : c ≠ x := by
  intro he
  rw [he] at h
  rw [hx] at h
  cases h

theorem numChar_not_space {c : Char} (h : numChar c = true) : isSpaceChar c = false := by
  have h1 := numChar_ne_of ' ' (by decide) h
  have h2 := numChar_ne_of '\t' (by decide) h
  have h3 := numChar_ne_of '\r' (by decide) h
  have h4 := numChar_ne_of '\n' (by decide) h
  simp [isSpaceChar, h1, h2, h3, h4]

/-- On a date/time-shaped input, `parse_datetime` consumes exactly the token
and returns it re-joined with its original separators. -/
theorem parse_datetime_groups (f : Nat) (g1 g2 rest : List Char) (gs1 gs2 : List (List Char))
    (hg1 : ∀ x ∈ g1 :: gs1, x ≠ [] ∧ ∀ c ∈ x, numChar c = true)
    (hg2 : ∀ x ∈ g2 :: gs2, x ≠ [] ∧ ∀ c ∈ x, numChar c = true)
    (hn1 : gs1.length < f) (hn2 : gs2.length < f) (hstop : noExt ':' rest) :
    parse_datetime f (dtJoin1 '-' (g1 :: gs1) ++ (' ' :: (dtJoin1 ':' (g2 :: gs2) ++ rest))) =
      .ok rest (dtJoin1 '-' (g1 :: gs1) ++ ' ' :: dtJoin1 ':' (g2 :: gs2)) := by
  have hA : dtJoin1 '-' (g1 :: gs1) ++ (' ' :: (dtJoin1 ':' (g2 :: gs2) ++ rest)) =
      g1 ++ (prepSep '-' gs1 ++ (' ' :: (dtJoin1 ':' (g2 :: gs2) ++ rest))) := by
    rw [dtJoin1_eq, List.append_assoc]
  have h1 := sepList1_groups (show numChar '-' = false by decide) g1 gs1
    (' ' :: (dtJoin1 ':' (g2 :: gs2) ++ rest)) f hg1 hn1
    (noExt_space (by decide) (dtJoin1 ':' (g2 :: gs2) ++ rest))
  have h2 : ptag [' '] (' ' :: (dtJoin1 ':' (g2 :: gs2) ++ rest)) =
      .ok (dtJoin1 ':' (g2 :: gs2) ++ rest) [' '] := ptag_self_cons ' ' _
  have hB : dtJoin1 ':' (g2 :: gs2) ++ rest = g2 ++ (prepSep ':' gs2 ++ rest) := by
    rw [dtJoin1_eq, List.append_assoc]
  have h3 := sepList1_groups (show numChar ':' = false by decide) g2 gs2 rest f hg2 hn2 hstop
  have hseq : seqPair (sepList1 f (ptag ['-']) num_checker) (ptag [' '])
      (sepList1 f (ptag [':']) num_checker)
      (dtJoin1 '-' (g1 :: gs1) ++ (' ' :: (dtJoin1 ':' (g2 :: gs2) ++ rest))) =
      .ok rest (g1 :: gs1, g2 :: gs2) := by
    rw [hA]
    unfold seqPair
    rw [h1]
    simp only [pbind]
    rw [h2]
    simp only [pbind]
    rw [hB, h3]
  show pcontext "datetime"
      (pmap (fun x => dtJoin1 '-' x.1 ++ ' ' :: dtJoin1 ':' x.2)
        (seqPair (sepList1 f (ptag ['-']) num_checker) (ptag [' '])
          (sepList1 f (ptag [':']) num_checker)))
      (dtJoin1 '-' (g1 :: gs1) ++ (' ' :: (dtJoin1 ':' (g2 :: gs2) ++ rest))) = _
  apply pcontext_ok_intro
  simp [pmap, hseq]

/-- C2: an input whose prefix is a date/time-shaped token — non-empty
digit/`.` groups joined by `-`, one space, groups joined by `:`, with the
remaining input unable to extend the token — is parsed by the dispatcher to
that token verbatim as a Text value: not a number, not a parse failure; the
date/time heuristic wins because it is attempted before the numeric parser. -/
theorem c2_datetime_priority (f : Nat) (g1 g2 rest : List Char) (gs1 gs2 : List (List Char))
    (hg1 : ∀ x ∈ g1 :: gs1, x ≠ [] ∧ ∀ c ∈ x, numChar c = true)
    (hg2 : ∀ x ∈ g2 :: gs2, x ≠ [] ∧ ∀ c ∈ x, numChar c = true)
    (hn1 : gs1.length < f) (hn2 : gs2.length < f) (hstop : noExt ':' rest) :
    data_model (f + 1) (dtJoin1 '-' (g1 :: gs1) ++ (' ' :: (dtJoin1 ':' (g2 :: gs2) ++ rest))) =
      .ok rest
        (.String (String.mk (dtJoin1 '-' (g1 :: gs1) ++ ' ' :: dtJoin1 ':' (g2 :: gs2)))) := by
  have hdt := parse_datetime_groups f g1 g2 rest gs1 gs2 hg1 hg2 hn1 hn2 hstop
  obtain ⟨c, g1t, hG⟩ : ∃ c t, g1 = c :: t := by
    rcases hq : g1 with _ | ⟨c, t⟩
    · exact absurd rfl (hg1 [] (hq ▸ List.mem_cons_self _ _)).1
    · exact ⟨c, t, rfl⟩
  subst hG
  have hcnum : numChar c = true :=
    (hg1 (c :: g1t) (List.mem_cons_self _ _)).2 c (List.mem_cons_self _ _)
  have hinput : dtJoin1 '-' ((c :: g1t) :: gs1) ++ (' ' :: (dtJoin1 ':' (g2 :: gs2) ++ rest)) =
      c :: (g1t ++ prepSep '-' gs1 ++ (' ' :: (dtJoin1 ':' (g2 :: gs2) ++ rest))) := by
    rw [dtJoin1_eq]
    simp [List.append_assoc]
  have hsp : isSpaceChar c = false := numChar_not_space hcnum
  have hN : ('N' == c) = false :=
    beq_eq_false_iff_ne.mpr (Ne.symm (numChar_ne_of 'N' (by decide) hcnum))
  have hT : ('t' == c) = false :=
    beq_eq_false_iff_ne.mpr (Ne.symm (numChar_ne_of 't' (by decide) hcnum))
  have hF : ('f' == c) = false :=
    beq_eq_false_iff_ne.mpr (Ne.symm (numChar_ne_of 'f' (by decide) hcnum))
  rw [data_model_succ]
  have hdrop : (dtJoin1 '-' ((c :: g1t) :: gs1) ++
      (' ' :: (dtJoin1 ':' (g2 :: gs2) ++ rest))).dropWhile isSpaceChar =
      dtJoin1 '-' ((c :: g1t) :: gs1) ++ (' ' :: (dtJoin1 ':' (g2 :: gs2) ++ rest)) := by
    rw [hinput, List.dropWhile_cons]
    simp [hsp]
  rw [hdrop]
  have hk : 2 < (dispatchAlts f).length := by simp [dispatchAlts]
  refine (altGo_first _ (dispatchAlts f) [] 2 hk ?_ ?_).trans ?_
  · intro m hm
    interval_cases m <;> rw [hinput] <;>
      simp [dispatchAlts, pmap, parse_null, parse_bool, altList, altGo, ptag, listPrefix,
        hN, hT, hF, PResult.isErr]
  · have hget2 : ((dispatchAlts f).get ⟨2, hk⟩) =
        pmap (fun cs => DataModel.String (String.mk cs)) (parse_datetime f) := rfl
    rw [hget2]
    simp [pmap, hdt, PResult.isErr]
  · have hget2 : ((dispatchAlts f).get ⟨2, hk⟩) =
        pmap (fun cs => DataModel.String (String.mk cs)) (parse_datetime f) := rfl
    rw [hget2]
    simp [pmap, hdt]

theorem c2_witness :
    data_model 4 ("2023-06-06 12:30:30.351996".toList) =
      .ok [] (.String "2023-06-06 12:30:30.351996") :=
  c2_datetime_priority 3 ("2023".toList) ("12".toList) [] ["06".toList, "06".toList]
    ["30".toList, "30.351996".toList] (by decide) (by decide) (by decide) (by decide)
    (by constructor)
